import Mathlib

/-!
Verification of the article-summarizer pipeline (src/src/app.py).

The development shallowly embeds the program: pure Python functions become
Lean functions, the mutable BeautifulSoup tree becomes a pure node tree,
machine integers become Nat with explicit reductions mod 2^32, exceptions
become explicit Except/Option results, and the calls to the external
collaborators (HTTP fetcher, OpenAI API, Azure table storage) become an
explicit environment of outcomes plus an event trace.
-/

set_option maxRecDepth 4000

/-! ## MD5 (hashlib.md5(...).hexdigest() as used for partition_key / row_key) -/

/-- Word size of the MD5 state registers: 2^32. -/
def w32 : Nat := 4294967296

/-- Left-rotation of a 32-bit word represented as a Nat below 2^32. -/
def rotl32 (x n : Nat) : Nat := ((x <<< n) % w32) ||| (x >>> (32 - n))

/-- The 64 MD5 round constants, floor(abs(sin(i+1)) * 2^32). -/
def mdK : List Nat :=
  [3614090360, 3905402710, 606105819, 3250441966, 4118548399, 1200080426,
   2821735955, 4249261313, 1770035416, 2336552879, 4294925233, 2304563134,
   1804603682, 4254626195, 2792965006, 1236535329, 4129170786, 3225465664,
   643717713, 3921069994, 3593408605, 38016083, 3634488961, 3889429448,
   568446438, 3275163606, 4107603335, 1163531501, 2850285829, 4243563512,
   1735328473, 2368359562, 4294588738, 2272392833, 1839030562, 4259657740,
   2763975236, 1272893353, 4139469664, 3200236656, 681279174, 3936430074,
   3572445317, 76029189, 3654602809, 3873151461, 530742520, 3299628645,
   4096336452, 1126891415, 2878612391, 4237533241, 1700485571, 2399980690,
   4293915773, 2240044497, 1873313359, 4264355552, 2734768916, 1309151649,
   4149444226, 3174756917, 718787259, 3951481745]

/-- The 64 MD5 per-round left-rotation amounts. -/
def mdS : List Nat :=
  [7, 12, 17, 22, 7, 12, 17, 22, 7, 12, 17, 22, 7, 12, 17, 22,
   5, 9, 14, 20, 5, 9, 14, 20, 5, 9, 14, 20, 5, 9, 14, 20,
   4, 11, 16, 23, 4, 11, 16, 23, 4, 11, 16, 23, 4, 11, 16, 23,
   6, 10, 15, 21, 6, 10, 15, 21, 6, 10, 15, 21, 6, 10, 15, 21]

/-- Little-endian byte decomposition of a Nat into k bytes. -/
def toLE : Nat → Nat → List Nat
  | 0, _ => []
  | k + 1, x => (x % 256) :: toLE k (x / 256)

/-- Group a 64-byte block into 16 little-endian 32-bit words. -/
def toWords : List Nat → List Nat
  | b0 :: b1 :: b2 :: b3 :: rest =>
      (b0 + 256 * (b1 + 256 * (b2 + 256 * b3))) :: toWords rest
  | _ => []

/-- One MD5 round on the state (a, b, c, d) with message words M. -/
def md5Round (M : List Nat) (st : Nat × Nat × Nat × Nat) (i : Nat) :
    Nat × Nat × Nat × Nat :=
  let a := st.1
  let b := st.2.1
  let c := st.2.2.1
  let d := st.2.2.2
  let f :=
    if i < 16 then (b &&& c) ||| ((b ^^^ 4294967295) &&& d)
    else if i < 32 then (d &&& b) ||| ((d ^^^ 4294967295) &&& c)
    else if i < 48 then b ^^^ c ^^^ d
    else c ^^^ (b ||| (d ^^^ 4294967295))
  let g :=
    if i < 16 then i
    else if i < 32 then (5 * i + 1) % 16
    else if i < 48 then (3 * i + 5) % 16
    else (7 * i) % 16
  let x := (a + f + mdK.getD i 0 + M.getD g 0) % w32
  (d, (b + rotl32 x (mdS.getD i 0)) % w32, b, c)

/-- Process one 64-byte block against the running MD5 state. -/
def md5Block (st : Nat × Nat × Nat × Nat) (block : List Nat) :
    Nat × Nat × Nat × Nat :=
  let M := toWords block
  let r := (List.range 64).foldl (md5Round M) st
  ((st.1 + r.1) % w32, (st.2.1 + r.2.1) % w32,
   (st.2.2.1 + r.2.2.1) % w32, (st.2.2.2 + r.2.2.2) % w32)

/-- Fold the MD5 compression function over the 64-byte blocks of the message.
Fuel-based structural recursion (fuel an upper bound on the byte count) so
that the definition evaluates inside the kernel. -/
def md5Blocks : Nat → (Nat × Nat × Nat × Nat) → List Nat → Nat × Nat × Nat × Nat
  | 0, st, _ => st
  | _, st, [] => st
  | fuel + 1, st, bs => md5Blocks fuel (md5Block st (bs.take 64)) (bs.drop 64)

/-- MD5 padding: 0x80, zeros to 56 mod 64, then the 8-byte LE bit length. -/
def md5Pad (msg : List Nat) : List Nat :=
  msg ++ 128 :: List.replicate ((64 + 55 - msg.length % 64) % 64) 0
      ++ toLE 8 ((8 * msg.length) % (2 ^ 64))

/-- The 16-byte MD5 digest of a byte sequence. -/
def md5Bytes (msg : List Nat) : List Nat :=
  let p := md5Pad msg
  let r := md5Blocks p.length (1732584193, 4023233417, 2562383102, 271733878) p
  toLE 4 r.1 ++ toLE 4 r.2.1 ++ toLE 4 r.2.2.1 ++ toLE 4 r.2.2.2

/-- Lowercase hexadecimal digit for a value below 16. -/
def hexDigit (n : Nat) : Char :=
  if n < 10 then Char.ofNat (48 + n) else Char.ofNat (87 + n)

/-- UTF-8 encoding of a single Unicode code point. -/
def utf8Bytes (c : Nat) : List Nat :=
  if c < 128 then [c]
  else if c < 2048 then [192 ||| (c >>> 6), 128 ||| (c &&& 63)]
  else if c < 65536 then
    [224 ||| (c >>> 12), 128 ||| ((c >>> 6) &&& 63), 128 ||| (c &&& 63)]
  else
    [240 ||| (c >>> 18), 128 ||| ((c >>> 12) &&& 63),
     128 ||| ((c >>> 6) &&& 63), 128 ||| (c &&& 63)]

/-- UTF-8 encoding of a string, the model of s.encode('utf-8'). -/
def utf8Encode (s : String) : List Nat :=
  (s.toList.map (fun ch => utf8Bytes ch.toNat)).flatten

/-- Model of hashlib.md5(s.encode('utf-8')).hexdigest(): the 32-character
lowercase hex digest of the UTF-8 bytes of s. -/
def md5Hex (s : String) : String :=
  String.mk (((md5Bytes (utf8Encode s)).map
    (fun b => [hexDigit (b / 16), hexDigit (b % 16)])).flatten)

/-- Model of app.py line 267: partition_key = md5(feed.feed.title).hexdigest(). -/
def partition_key (feedTitle : String) : String := md5Hex feedTitle

/-- Model of app.py line 272: row_key = md5(entry.id).hexdigest(). -/
def row_key (entryIdentity : String) : String := md5Hex entryIdentity

/-! ## TextChunker

The source delegates body chunking to
RecursiveCharacterTextSplitter(chunk_size=2000, chunk_overlap=0,
separators=[',', '.', '、', '。']) from the langchain_text_splitters
dependency, whose code is not part of this repository.  The chunker is
therefore modelled from the spec (section 4.1).  Texts are lists of
characters (Unicode code points); the separators used by the program are
single characters.  Pieces carry their trailing separator, so merging is
plain concatenation and nothing is ever lost. -/

/-- Modelled from the spec: the separator priority list of section 4.1,
"comma, period, full-width comma, full-width period", exactly the
separators passed to the splitter at app.py lines 116-120. -/
def sepList : List Char := [',', '.', '、', '。']

/-- Modelled from the spec: split a text on every occurrence of the
separator (spec 4.1 step 2).  Each piece keeps its trailing separator, so
the pieces concatenate back to the input. -/
def splitKeepSep (sep : Char) : List Char → List (List Char)
  | [] => []
  | c :: rest =>
    if c = sep then [c] :: splitKeepSep sep rest
    else
      match splitKeepSep sep rest with
      | [] => [[c]]
      | p :: ps => (c :: p) :: ps

/-- Modelled from the spec: greedily re-merge consecutive pieces, in
order, into chunks as large as possible without exceeding the maximum
length (spec 4.1 step 2).  cur is the chunk being grown. -/
def greedyMergeAux (m : Nat) (cur : List Char) : List (List Char) → List (List Char)
  | [] => [cur]
  | p :: ps =>
    if cur.length + p.length ≤ m then greedyMergeAux m (cur ++ p) ps
    else cur :: greedyMergeAux m p ps

/-- Modelled from the spec: greedy re-merge of a piece list. -/
def greedyMerge (m : Nat) : List (List Char) → List (List Char)
  | [] => []
  | p :: ps => greedyMergeAux m p ps

/-- Modelled from the spec: hard cut at maxLength boundaries, the terminal
fallback of spec 4.1 step 3.  Fuel-based structural recursion (fuel any
upper bound on the text length) so the definition evaluates in the kernel. -/
def hardCutFuel (m : Nat) : Nat → List Char → List (List Char)
  | 0, s => [s]
  | fuel + 1, s =>
    if s.length ≤ m then [s]
    else s.take m :: hardCutFuel m fuel (s.drop m)

/-- Modelled from the spec: hard cut of a text at maxLength boundaries. -/
def hardCut (m : Nat) (s : List Char) : List (List Char) :=
  hardCutFuel m s.length s

/-- Modelled from the spec: the recursive greedy splitter of section 4.1.
Step 1: a text within the limit is returned whole.  Step 2: split on the
first separator present, greedily re-merge.  Step 3: chunks still over the
limit are re-processed with the lower-priority separators, and with no
separator left the hard cut applies. -/
def splitText (m : Nat) : List Char → List Char → List (List Char)
  | [], s => if s.length ≤ m then [s] else hardCut m s
  | sep :: rest, s =>
    if s.length ≤ m then [s]
    else if sep ∈ s then
      ((greedyMerge m (splitKeepSep sep s)).map
        (fun c => if c.length ≤ m then [c] else splitText m rest c)).flatten
    else splitText m rest s

/-- The chunking applied to extracted article text: split into chunks of at
most 2000 code points with the program's separator list. -/
def chunkText (s : String) : List String :=
  (splitText 2000 sepList s.toList).map (fun l => String.mk l)


/-! ## ArticleExtractor (get_article, app.py lines 87-127)

The BeautifulSoup document is embedded as a pure tree of element and text
nodes in first-child/next-sibling form: a Forest is a sequence of sibling
nodes, each element node carrying the forest of its children.  The
in-place tree mutations of the source (decompose, string assignment)
become pure tree transformations with the same observable effect on
get_text(). -/

/-- A sequence of sibling markup nodes.  elemCons t cs rest is an element
node with tag t and children cs followed by the siblings rest; textCons s
rest is a text node. -/
inductive Forest where
  | nil
  | textCons (s : String) (rest : Forest)
  | elemCons (tag : String) (children : Forest) (rest : Forest)
deriving Repr, DecidableEq

/-- Model of soup.find(tags) / tag.find(tags): the first element in
document (pre-order) order whose tag is in the list, searching the given
nodes and their descendants; the result is its tag and its children. -/
def findFirst (tags : List String) : Forest → Option (String × Forest)
  | .nil => none
  | .textCons _ rest => findFirst tags rest
  | .elemCons t cs rest =>
    if tags.contains t then some (t, cs)
    else
      match findFirst tags cs with
      | some r => some r
      | none => findFirst tags rest

/-- Removal of the first pre-order element with the given tag, together
with its subtree; the Bool reports whether a removal happened. -/
def removeFirstAux (tag : String) : Forest → Forest × Bool
  | .nil => (.nil, false)
  | .textCons s rest =>
    let r := removeFirstAux tag rest
    (.textCons s r.1, r.2)
  | .elemCons t cs rest =>
    if t == tag then (rest, true)
    else
      let rc := removeFirstAux tag cs
      if rc.2 then (.elemCons t rc.1 rest, true)
      else
        let rr := removeFirstAux tag rest
        (.elemCons t cs rr.1, rr.2)

/-- Model of find(tag) followed by decompose() (app.py lines 98-102). -/
def removeFirst (tag : String) (f : Forest) : Forest :=
  (removeFirstAux tag f).1

/-- Model of the loop "for t in article_content.find_all(tag): t.decompose()"
(app.py lines 105-107): every element with the tag is removed along with
its subtree. -/
def removeAllTag (tag : String) : Forest → Forest
  | .nil => .nil
  | .textCons s rest => .textCons s (removeAllTag tag rest)
  | .elemCons t cs rest =>
    if t == tag then removeAllTag tag rest
    else .elemCons t (removeAllTag tag cs) (removeAllTag tag rest)

/-- Model of get_text(): concatenation of all descendant text, in order. -/
def getText : Forest → String
  | .nil => ""
  | .textCons s rest => s ++ getText rest
  | .elemCons _ cs rest => getText cs ++ getText rest

/-- Python whitespace test for str.strip(). -/
def isPySpace (c : Char) : Bool :=
  c = ' ' ∨ c = '\t' ∨ c = '\n' ∨ c = '\r' ∨ c = '\x0b' ∨ c = '\x0c'

/-- Model of str.strip(): drop leading and trailing whitespace. -/
def pyStrip (s : String) : String :=
  String.mk (((s.toList.dropWhile isPySpace).reverse.dropWhile isPySpace).reverse)

/-- The fenced marker written around multi-line code, f-string at app.py
line 113 (the quotes are three apostrophes, written escaped). -/
def codeFence (s : String) : String :=
  "\n\x27\x27\x27code\n" ++ s ++ "\n\x27\x27\x27\n"

/-- Model of the code/pre wrapping loop (app.py lines 110-113): every
code or pre element whose stripped text contains a line break has its
content replaced by the fenced text.  Replacing the children of the
outermost such element subsumes the visits the source loop pays to the
(already detached) inner elements. -/
def wrapCode : Forest → Forest
  | .nil => .nil
  | .textCons s rest => .textCons s (wrapCode rest)
  | .elemCons t cs rest =>
    if (t == "code" || t == "pre")
        && (pyStrip (getText cs)).toList.contains '\n' then
      .elemCons t (.textCons (codeFence (pyStrip (getText cs))) .nil) (wrapCode rest)
    else .elemCons t (wrapCode cs) (wrapCode rest)

/-- The noise-tag denylist of app.py line 105. -/
def noiseTags : List String := ["img", "footer", "source", "style", "picture", "figure"]

/-- The errors raised by unprotected code in the source: h1_text is only
assigned under "if h1 is not None" yet read unconditionally at app.py
line 124, and None.split would be the (unreachable) line 259 on a missing
RSS_URL. -/
inductive PyError where
  | unboundLocalH1Text
  | attributeErrorNoneSplit
deriving Repr, DecidableEq

/-- Cleanup and chunking of the article body: noise-tag removal (app.py
lines 105-107), code fencing (lines 110-113), then the text is chunked
(lines 116-122). -/
def cleanChunks (body : Forest) : List String :=
  chunkText (getText (wrapCode (noiseTags.foldl (fun cs tag => removeAllTag tag cs) body)))

/-- Model of get_article (app.py lines 87-127).  Returns the chunk list,
with the synthesized title segment first when the container has an h1; an
article without an h1 makes the source raise UnboundLocalError at line 124
because h1_text was never assigned. -/
def get_article (doc : Forest) : Except PyError (List String) :=
  match findFirst ["article", "main"] doc with
  | none => .ok []
  | some container =>
    match findFirst ["h1"] container.2 with
    | some h1 =>
      .ok (("title: " ++ getText h1.2) :: cleanChunks (removeFirst "h1" container.2))
    | none => .error .unboundLocalH1Text

/-! ## PipelineOrchestrator (app.py lines 62-85, 129-210, 212-247, 249-279)

The external collaborators are modelled by an environment of outcomes per
URL / per key, and each run yields the final ledger plus a trace of calls
made on the collaborators.  Uncaught Python exceptions (the h1 bug)
propagate as Except.error. -/

/-- Outcome of requests.get(url, timeout=10) as seen by get_content. -/
inductive HttpOutcome where
  | response (status : Nat) (doc : Forest)
  | timeout
  | transportError

/-- Model of get_content (app.py lines 62-85): 3xx/4xx/5xx statuses,
timeouts and transport errors all yield the empty-content sentinel
(none); a non-3xx/4xx/5xx response yields its parsed document. -/
def get_content (o : HttpOutcome) : Option Forest :=
  match o with
  | .response status doc =>
    if 500 ≤ status then none
    else if 400 ≤ status then none
    else if 300 ≤ status then none
    else some doc
  | .timeout => none
  | .transportError => none

/-- A durable ledger record, the Azure table entity of app.py lines 190-195. -/
structure LedgerRecord where
  partitionKey : String
  rowKey : String
  url : String
  content : String
deriving Repr, DecidableEq

/-- The history table state: records in insertion order. -/
def Ledger : Type := List LedgerRecord

/-- Lookup of table_client.get_entity(partition_key, row_key). -/
def ledgerGet : Ledger → String → String → Option LedgerRecord
  | [], _, _ => none
  | r :: L, pk, rk =>
    if r.partitionKey = pk ∧ r.rowKey = rk then some r else ledgerGet L pk rk

/-- Model of table_client.upsert_entity: replace the record with the same
key pair, or append a new record. -/
def ledgerUpsert : Ledger → LedgerRecord → Ledger
  | [], r => [r]
  | x :: L, r =>
    if x.partitionKey = r.partitionKey ∧ x.rowKey = r.rowKey then r :: L
    else x :: ledgerUpsert L r

/-- One event on an external collaborator during a run. -/
inductive Event where
  | ledgerGetCall (pk rk : String)
  | fetchCall (url : String)
  | summarizerCall (url : String) (chunks : List String)
  | ledgerPut (pk rk url content : String)
deriving Repr, DecidableEq

/-- The environment of collaborator outcomes for one run: the HTTP fetch
outcome per URL, the OpenAI completion per URL (none models a raised
exception), and whether the ledger get / put raises for a key pair. -/
structure RunEnv where
  fetchAt : String → HttpOutcome
  apiAt : String → Option String
  getFails : String → String → Bool
  putFails : String → String → Bool

/-- Model of get_summarize (app.py lines 129-184): empty content or an
extraction with no chunks short-circuits to the empty string; otherwise
the summarizer is invoked and a raised exception is converted to the
empty string.  The h1 UnboundLocalError of get_article propagates. -/
def get_summarize (env : RunEnv) (url : String) : Except PyError (String × List Event) :=
  match get_content (env.fetchAt url) with
  | none => .ok ("", [.fetchCall url])
  | some doc =>
    match get_article doc with
    | .error e => .error e
    | .ok chunks =>
      if chunks.length = 0 then .ok ("", [.fetchCall url])
      else .ok ((env.apiAt url).getD "", [.fetchCall url, .summarizerCall url chunks])

/-- Model of read_history (app.py lines 201-210): any exception from
get_entity, including storage failures, is caught and turned into None. -/
def read_history (env : RunEnv) (L : Ledger) (pk rk : String) : Option LedgerRecord :=
  if env.getFails pk rk then none else ledgerGet L pk rk

/-- Model of write_history (app.py lines 186-199): upsert_entity is
attempted; a raised exception is caught and logged, leaving the table
unchanged. -/
def write_history (env : RunEnv) (L : Ledger) (pk rk url content : String) : Ledger :=
  if env.putFails pk rk then L else ledgerUpsert L ⟨pk, rk, url, content⟩

/-- One iteration of the per-entry loop body (app.py lines 272-278):
compute the row key, consult the history, skip when a record exists,
otherwise summarize and write the result unconditionally. -/
def processEntry (env : RunEnv) (pk : String) (L : Ledger) (entryId entryLink : String) :
    Except PyError (Ledger × List Event) :=
  let rk := row_key entryId
  match read_history env L pk rk with
  | some _ => .ok (L, [.ledgerGetCall pk rk])
  | none =>
    match get_summarize env entryLink with
    | .error e => .error e
    | .ok out =>
      .ok (write_history env L pk rk entryLink out.1,
           .ledgerGetCall pk rk :: (out.2 ++ [.ledgerPut pk rk entryLink out.1]))

/-- A feed entry as consumed by the loop: entry.id and entry.link. -/
structure Entry where
  id : String
  link : String
deriving Repr, DecidableEq

/-- A parsed feed: feedparser status, feed title and entry list. -/
structure Feed where
  status : Nat
  title : String
  entries : List Entry

/-- The entry loop of app.py lines 262-278: the counter i starts at 1 and
the loop breaks before processing an entry once i exceeds 10. -/
def entriesLoop (env : RunEnv) (pk : String) : Nat → Ledger → List Entry →
    Except PyError (Ledger × List Event)
  | _, L, [] => .ok (L, [])
  | i, L, e :: rest =>
    if 10 < i then .ok (L, [])
    else
      match processEntry env pk L e.id e.link with
      | .error err => .error err
      | .ok (L2, evs) =>
        match entriesLoop env pk (i + 1) L2 rest with
        | .error err => .error err
        | .ok (L3, evs2) => .ok (L3, evs ++ evs2)

/-- One feed iteration (app.py lines 261-278): a non-200 feed status is
skipped, otherwise the partition key is derived from the feed title and
the entry loop runs with the counter starting at 1. -/
def processFeed (env : RunEnv) (L : Ledger) (f : Feed) :
    Except PyError (Ledger × List Event) :=
  if f.status ≠ 200 then .ok (L, [])
  else entriesLoop env (partition_key f.title) 1 L f.entries

/-- The whole run over the parsed feeds, threading the ledger. -/
def runFeeds (env : RunEnv) : Ledger → List Feed → Except PyError (Ledger × List Event)
  | L, [] => .ok (L, [])
  | L, f :: fs =>
    match processFeed env L f with
    | .error err => .error err
    | .ok (L2, evs) =>
      match runFeeds env L2 fs with
      | .error err => .error err
      | .ok (L3, evs2) => .ok (L3, evs ++ evs2)

/-! ## Startup configuration (validate_config and module top level) -/

/-- The environment variables read at startup; none models an unset
variable. -/
structure ConfigEnv where
  rss_url : Option String
  storage_connection_string : Option String
  output_language : Option String
  api_key : Option String

/-- Python truthiness of os.getenv: false for an unset variable and for
the empty string. -/
def envTruthy : Option String → Bool
  | none => false
  | some s => !(s == "")

/-- Model of validate_config (app.py lines 212-247): the first missing
variable halts the process via exit(0); the result is the exit code, or
none when validation passes. -/
def validate_config (c : ConfigEnv) : Option Nat :=
  if !envTruthy c.rss_url then some 0
  else if !envTruthy c.storage_connection_string then some 0
  else if !envTruthy c.output_language then some 0
  else if !envTruthy c.api_key then some 0
  else none

/-- Result of one whole process run. -/
inductive AppOutcome where
  | exited (code : Nat) (trace : List Event)
  | completed (ledger : Ledger) (trace : List Event)
  | crashed (e : PyError)

/-- Model of the module top level (app.py lines 245-278): validate the
configuration, re-check the RSS_URL for emptiness (line 256), split it on
the pipe character, parse each feed and run the pipeline.  parseFeed
models feedparser.parse. -/
def runApp (c : ConfigEnv) (env : RunEnv) (parseFeed : String → Feed) : AppOutcome :=
  match validate_config c with
  | some code => .exited code []
  | none =>
    match c.rss_url with
    | none => .crashed .attributeErrorNoneSplit
    | some rurl =>
      if rurl == "" then .exited 0 []
      else
        match runFeeds env [] ((rurl.splitOn "|").map parseFeed) with
        | .error e => .crashed e
        | .ok (L, evs) => .completed L evs

/-! ## Trace observations and concrete fixtures -/

/-- Whether an event is an invocation of the Summarizer. -/
def isSummarizerCall : Event → Bool
  | .summarizerCall _ _ => true
  | _ => false

/-- Number of Summarizer invocations in a trace. -/
def countSummarizerCalls (evs : List Event) : Nat :=
  (evs.filter isSummarizerCall).length

/-- Whether an event is a Ledger.put (an upsert_entity call). -/
def isLedgerPut : Event → Bool
  | .ledgerPut _ _ _ _ => true
  | _ => false

/-- The key pair of a ledger-get event, none for other events. -/
def keyOfGet : Event → Option (String × String)
  | .ledgerGetCall pk rk => some (pk, rk)
  | _ => none

/-- The key pairs of the per-entry history lookups of a trace, in order:
one per entry iteration of the loop. -/
def entryKeyEvents (evs : List Event) : List (String × String) :=
  evs.filterMap keyOfGet

/-- Fixture: an environment whose fetches all time out and whose ledger
behaves normally. -/
def timeoutEnv : RunEnv :=
  { fetchAt := fun _ => .timeout
    apiAt := fun _ => none
    getFails := fun _ _ => false
    putFails := fun _ _ => false }

/-- Fixture: a one-entry feed. -/
def oneEntryFeed : Feed := { status := 200, title := "F", entries := [⟨"e1", "u"⟩] }

/-- Fixture: the ledger state after running timeoutEnv on oneEntryFeed. -/
def oneEntryLedger : Ledger :=
  [⟨partition_key "F", row_key "e1", "u", ""⟩]

/-- Fixture: the trace of running timeoutEnv on oneEntryFeed. -/
def oneEntryTrace : List Event :=
  [.ledgerGetCall (partition_key "F") (row_key "e1"), .fetchCall "u",
   .ledgerPut (partition_key "F") (row_key "e1") "u" ""]

/-- Fixture: an eleven-entry feed for the per-feed cap scenario. -/
def elevenFeed : Feed :=
  { status := 200, title := "F5", entries :=
    [⟨"n01", "u01"⟩, ⟨"n02", "u02"⟩, ⟨"n03", "u03"⟩, ⟨"n04", "u04"⟩,
     ⟨"n05", "u05"⟩, ⟨"n06", "u06"⟩, ⟨"n07", "u07"⟩, ⟨"n08", "u08"⟩,
     ⟨"n09", "u09"⟩, ⟨"n10", "u10"⟩, ⟨"n11", "u11"⟩] }

/-- Fixture: the trace of running timeoutEnv on elevenFeed from an empty
ledger: ten entry iterations, each a history lookup, a fetch and a write. -/
def elevenTrace : List Event :=
  ((elevenFeed.entries.take 10).map (fun e =>
    [Event.ledgerGetCall (partition_key "F5") (row_key e.id), Event.fetchCall e.link,
     Event.ledgerPut (partition_key "F5") (row_key e.id) e.link ""])).flatten

/-- Fixture: the ledger after running timeoutEnv on elevenFeed from an
empty ledger: one empty-content record per processed entry. -/
def elevenLedger : Ledger :=
  (elevenFeed.entries.take 10).map (fun e =>
    ⟨partition_key "F5", row_key e.id, e.link, ""⟩)

/-- Fixture: an article page without any h1 heading, the input on which
get_article raises UnboundLocalError. -/
def noHeadingDoc : Forest :=
  .elemCons "article" (.elemCons "p" (.textCons "Hello world." .nil) .nil) .nil

/-- Fixture: an article whose body text repeats the heading text. -/
def repeatedHeadingDoc : Forest :=
  .elemCons "article"
    (.elemCons "h1" (.textCons "Hello" .nil)
      (.elemCons "p" (.textCons "Hello" .nil) .nil)) .nil

/-- Fixture: an article with a heading and a body, as in the end-to-end
scenario of the spec. -/
def helloDoc : Forest :=
  .elemCons "article"
    (.elemCons "h1" (.textCons "Hello" .nil)
      (.elemCons "p" (.textCons "World." .nil) .nil)) .nil

/-- Fixture: an environment whose ledger get always raises (storage
unavailable) while fetches succeed with helloDoc and the summarizer
answers. -/
def getFailEnv : RunEnv :=
  { fetchAt := fun _ => .response 200 helloDoc
    apiAt := fun _ => some "title: Hello\nsummary: World."
    getFails := fun _ _ => true
    putFails := fun _ _ => false }

/-- Fixture: a ledger that already holds a record for the getFailEnv
witness entry, to exhibit the overwrite. -/
def staleLedger : Ledger :=
  [⟨partition_key "F", row_key "e1", "u", "old summary"⟩]

/-- Fixture: a configuration with the RSS_URL variable unset. -/
def noRssConfig : ConfigEnv :=
  { rss_url := none
    storage_connection_string := some "cs"
    output_language := some "en"
    api_key := some "k" }

/-- Fixture: a trivial feed parser for startup theorems. -/
def trivialParse : String → Feed := fun _ => { status := 0, title := "", entries := [] }

/-! ## Lemmas about the chunker -/

theorem flatten_splitKeepSep (sep : Char) :
    ∀ s : List Char, (splitKeepSep sep s).flatten = s := by
  intro s
  induction s with
  | nil => rfl
  | cons c rest ih =>
    by_cases hc : c = sep
    · simp [splitKeepSep, hc] at ih ⊢
      exact ih
    · simp only [splitKeepSep, if_neg hc]
      cases hr : splitKeepSep sep rest with
      | nil =>
        rw [hr] at ih
        simp at ih
        simp [← ih]
      | cons p ps =>
        rw [hr] at ih
        simp only [List.flatten_cons] at ih ⊢
        rw [List.cons_append, ih]

theorem flatten_greedyMergeAux (m : Nat) :
    ∀ (ps : List (List Char)) (cur : List Char),
      (greedyMergeAux m cur ps).flatten = cur ++ ps.flatten := by
  intro ps
  induction ps with
  | nil => intro cur; simp [greedyMergeAux]
  | cons p ps ih =>
    intro cur
    by_cases h : cur.length + p.length ≤ m
    · simp [greedyMergeAux, if_pos h, ih]
    · simp [greedyMergeAux, if_neg h, ih]

theorem flatten_greedyMerge (m : Nat) (ps : List (List Char)) :
    (greedyMerge m ps).flatten = ps.flatten := by
  cases ps with
  | nil => rfl
  | cons p ps => simp [greedyMerge, flatten_greedyMergeAux]

theorem flatten_hardCutFuel (m : Nat) :
    ∀ (fuel : Nat) (s : List Char), (hardCutFuel m fuel s).flatten = s := by
  intro fuel
  induction fuel with
  | zero => intro s; simp [hardCutFuel]
  | succ fuel ih =>
    intro s
    by_cases h : s.length ≤ m
    · simp [hardCutFuel, if_pos h]
    · simp [hardCutFuel, if_neg h, ih]

theorem length_hardCutFuel (m : Nat) (hm : 1 ≤ m) :
    ∀ (fuel : Nat) (s : List Char), s.length ≤ fuel →
      ∀ c ∈ hardCutFuel m fuel s, c.length ≤ m := by
  intro fuel
  induction fuel with
  | zero =>
    intro s hs c hc
    simp [hardCutFuel] at hc
    subst hc
    omega
  | succ fuel ih =>
    intro s hs c hc
    by_cases h : s.length ≤ m
    · simp [hardCutFuel, if_pos h] at hc
      subst hc
      exact h
    · simp only [hardCutFuel, if_neg h, List.mem_cons] at hc
      rcases hc with hc | hc
      · subst hc
        simp [List.length_take]
      · exact ih (s.drop m) (by simp [List.length_drop]; omega) c hc

theorem flatten_flatten_map (f : List Char → List (List Char)) :
    ∀ l : List (List Char), (∀ c ∈ l, (f c).flatten = c) →
      ((l.map f).flatten).flatten = l.flatten := by
  intro l
  induction l with
  | nil => intro _; rfl
  | cons c l ih =>
    intro h
    simp only [List.map_cons, List.flatten_cons, List.flatten_append]
    rw [h c (List.mem_cons_self c l), ih (fun x hx => h x (List.mem_cons_of_mem c hx))]

theorem flatten_splitText (m : Nat) :
    ∀ (seps : List Char) (s : List Char), (splitText m seps s).flatten = s := by
  intro seps
  induction seps with
  | nil =>
    intro s
    by_cases h : s.length ≤ m
    · simp [splitText, if_pos h]
    · simp [splitText, if_neg h, hardCut, flatten_hardCutFuel]
  | cons sep rest ih =>
    intro s
    by_cases h : s.length ≤ m
    · simp [splitText, if_pos h]
    · by_cases hsep : sep ∈ s
      · simp only [splitText, if_neg h, if_pos hsep]
        rw [flatten_flatten_map]
        · rw [flatten_greedyMerge, flatten_splitKeepSep]
        · intro c _
          by_cases hc : c.length ≤ m
          · simp [if_pos hc]
          · simp [if_neg hc, ih]
      · simp [splitText, if_neg h, if_neg hsep, ih]

theorem length_splitText (m : Nat) (hm : 1 ≤ m) :
    ∀ (seps : List Char) (s : List Char), ∀ c ∈ splitText m seps s, c.length ≤ m := by
  intro seps
  induction seps with
  | nil =>
    intro s c hc
    by_cases h : s.length ≤ m
    · simp [splitText, if_pos h] at hc
      subst hc
      exact h
    · simp only [splitText, if_neg h, hardCut] at hc
      exact length_hardCutFuel m hm s.length s (Nat.le_refl _) c hc
  | cons sep rest ih =>
    intro s c hc
    by_cases h : s.length ≤ m
    · simp [splitText, if_pos h] at hc
      subst hc
      exact h
    · by_cases hsep : sep ∈ s
      · simp only [splitText, if_neg h, if_pos hsep, List.mem_flatten, List.mem_map] at hc
        obtain ⟨l, ⟨p, _, hfp⟩, hcl⟩ := hc
        subst hfp
        by_cases hp : p.length ≤ m
        · simp [if_pos hp] at hcl
          subst hcl
          exact hp
        · simp only [if_neg hp] at hcl
          exact ih p c hcl
      · simp only [splitText, if_neg h, if_neg hsep] at hc
        exact ih s c hc

/-! ## Claim theorems for the chunker -/

/-- Claim C4: for every input text, concatenating the chunks returned by
the splitter reproduces the input text exactly with no loss, and no chunk
exceeds the maximum length of 2000 code points. -/
theorem chunker_lossless_and_bounded (s : List Char) :
    (splitText 2000 sepList s).flatten = s ∧
      (splitText 2000 sepList s).all (fun c => c.length ≤ 2000) = true := by
  constructor
  · exact flatten_splitText 2000 sepList s
  · rw [List.all_eq_true]
    intro c hc
    simpa using length_splitText 2000 (by omega) sepList s c hc

/-- Claim C8: a text of at most 2000 code points is returned whole, as the
singleton chunk sequence. -/
theorem chunker_short_text_singleton (s : List Char) (h : s.length ≤ 2000) :
    splitText 2000 sepList s = [s] := by
  simp [splitText, sepList, if_pos h]

/-- Witness for C8 at a concrete short text. -/
theorem chunker_short_text_singleton_witness :
    ("ab,cd".toList).length ≤ 2000 ∧ splitText 2000 sepList "ab,cd".toList = ["ab,cd".toList] :=
  ⟨by decide, chunker_short_text_singleton "ab,cd".toList (by decide)⟩

/-! ## Lemmas about the ledger and the run -/

theorem ledgerGet_upsert (r : LedgerRecord) :
    ∀ (L : Ledger) (pk rk : String),
      ledgerGet (ledgerUpsert L r) pk rk =
        if r.partitionKey = pk ∧ r.rowKey = rk then some r else ledgerGet L pk rk := by
  intro L
  induction L with
  | nil => intro pk rk; rfl
  | cons x L ih =>
    intro pk rk
    simp only [ledgerUpsert]
    by_cases hx : x.partitionKey = r.partitionKey ∧ x.rowKey = r.rowKey
    · rw [if_pos hx]
      simp only [ledgerGet]
      by_cases hq : r.partitionKey = pk ∧ r.rowKey = rk
      · rw [if_pos hq, if_pos hq]
      · have hxq : ¬(x.partitionKey = pk ∧ x.rowKey = rk) := fun hc =>
          hq ⟨hx.1.symm.trans hc.1, hx.2.symm.trans hc.2⟩
        rw [if_neg hq, if_neg hq, if_neg hxq]
    · rw [if_neg hx]
      simp only [ledgerGet]
      by_cases hxq : x.partitionKey = pk ∧ x.rowKey = rk
      · have hq : ¬(r.partitionKey = pk ∧ r.rowKey = rk) := fun hr =>
          hx ⟨hxq.1.trans hr.1.symm, hxq.2.trans hr.2.symm⟩
        rw [if_pos hxq, if_neg hq, if_pos hxq]
      · rw [if_neg hxq, if_neg hxq]
        exact ih pk rk

theorem ledgerGet_isSome_upsert (L : Ledger) (r : LedgerRecord) (pk rk : String)
    (h : (ledgerGet L pk rk).isSome = true) :
    (ledgerGet (ledgerUpsert L r) pk rk).isSome = true := by
  rw [ledgerGet_upsert]
  split <;> simp_all

theorem write_history_isSome (env : RunEnv) (L : Ledger) (pk rk url content : String)
    (pk' rk' : String) (h : (ledgerGet L pk' rk').isSome = true) :
    (ledgerGet (write_history env L pk rk url content) pk' rk').isSome = true := by
  unfold write_history
  split
  · exact h
  · exact ledgerGet_isSome_upsert L _ pk' rk' h

theorem processEntry_ok_monotone (env : RunEnv) (pk : String) (L : Ledger)
    (eid elink : String) (L' : Ledger) (evs : List Event)
    (h : processEntry env pk L eid elink = .ok (L', evs))
    (pk' rk' : String) (hs : (ledgerGet L pk' rk').isSome = true) :
    (ledgerGet L' pk' rk').isSome = true := by
  simp only [processEntry] at h
  cases hrh : read_history env L pk (row_key eid) with
  | some r =>
    rw [hrh] at h
    simp at h
    rw [← h.1]
    exact hs
  | none =>
    rw [hrh] at h
    cases hgs : get_summarize env elink with
    | error e => rw [hgs] at h; simp at h
    | ok out =>
      rw [hgs] at h
      simp at h
      rw [← h.1]
      exact write_history_isSome env L pk (row_key eid) elink out.1 pk' rk' hs

theorem processEntry_ok_covers (env : RunEnv) (pk : String) (L : Ledger)
    (eid elink : String) (L' : Ledger) (evs : List Event)
    (hput : env.putFails pk (row_key eid) = false)
    (h : processEntry env pk L eid elink = .ok (L', evs)) :
    (ledgerGet L' pk (row_key eid)).isSome = true := by
  simp only [processEntry] at h
  cases hrh : read_history env L pk (row_key eid) with
  | some r =>
    rw [hrh] at h
    simp at h
    rw [← h.1]
    unfold read_history at hrh
    by_cases hg : env.getFails pk (row_key eid)
    · simp [hg] at hrh
    · simp [hg] at hrh
      simp [hrh]
  | none =>
    rw [hrh] at h
    cases hgs : get_summarize env elink with
    | error e => rw [hgs] at h; simp at h
    | ok out =>
      rw [hgs] at h
      simp at h
      rw [← h.1]
      unfold write_history
      rw [hput]
      simp [ledgerGet_upsert]

theorem entriesLoop_ok_monotone (env : RunEnv) (pk : String) :
    ∀ (es : List Entry) (i : Nat) (L L' : Ledger) (evs : List Event),
      entriesLoop env pk i L es = .ok (L', evs) →
      ∀ pk' rk', (ledgerGet L pk' rk').isSome = true →
        (ledgerGet L' pk' rk').isSome = true := by
  intro es
  induction es with
  | nil =>
    intro i L L' evs h pk' rk' hs
    simp [entriesLoop] at h
    rw [← h.1]
    exact hs
  | cons e es ih =>
    intro i L L' evs h pk' rk' hs
    by_cases hi : 10 < i
    · simp [entriesLoop, if_pos hi] at h
      rw [← h.1]
      exact hs
    · simp only [entriesLoop, if_neg hi] at h
      cases hpe : processEntry env pk L e.id e.link with
      | error err => rw [hpe] at h; simp at h
      | ok p =>
        obtain ⟨L2, evs1⟩ := p
        rw [hpe] at h
        simp only at h
        cases hloop : entriesLoop env pk (i + 1) L2 es with
        | error err => rw [hloop] at h; simp at h
        | ok q =>
          obtain ⟨L3, evs2⟩ := q
          rw [hloop] at h
          simp at h
          rw [← h.1]
          exact ih (i + 1) L2 L3 evs2 hloop pk' rk'
            (processEntry_ok_monotone env pk L e.id e.link L2 evs1 hpe pk' rk' hs)

theorem entriesLoop_covers (env : RunEnv) (pk : String)
    (hput : ∀ rk, env.putFails pk rk = false) :
    ∀ (es : List Entry) (i : Nat) (L L' : Ledger) (evs : List Event),
      entriesLoop env pk i L es = .ok (L', evs) →
      ∀ e ∈ es.take (11 - i), (ledgerGet L' pk (row_key e.id)).isSome = true := by
  intro es
  induction es with
  | nil => intro i L L' evs h e he; simp at he
  | cons e es ih =>
    intro i L L' evs h f hf
    by_cases hi : 10 < i
    · have h0 : 11 - i = 0 := by omega
      rw [h0] at hf
      simp at hf
    · have h11 : 11 - i = (11 - (i + 1)) + 1 := by omega
      rw [h11, List.take_succ_cons] at hf
      simp only [entriesLoop, if_neg hi] at h
      cases hpe : processEntry env pk L e.id e.link with
      | error err => rw [hpe] at h; simp at h
      | ok p =>
        obtain ⟨L2, evs1⟩ := p
        rw [hpe] at h
        simp only at h
        cases hloop : entriesLoop env pk (i + 1) L2 es with
        | error err => rw [hloop] at h; simp at h
        | ok q =>
          obtain ⟨L3, evs2⟩ := q
          rw [hloop] at h
          simp at h
          rcases List.mem_cons.mp hf with hfe | hfe
          · subst hfe
            rw [← h.1]
            exact entriesLoop_ok_monotone env pk es (i + 1) L2 L3 evs2 hloop
              pk (row_key f.id)
              (processEntry_ok_covers env pk L f.id f.link L2 evs1 (hput _) hpe)
          · rw [← h.1]
            exact ih (i + 1) L2 L3 evs2 hloop f hfe

theorem processFeed_ok_monotone (env : RunEnv) (L : Ledger) (f : Feed)
    (L' : Ledger) (evs : List Event) (h : processFeed env L f = .ok (L', evs))
    (pk' rk' : String) (hs : (ledgerGet L pk' rk').isSome = true) :
    (ledgerGet L' pk' rk').isSome = true := by
  unfold processFeed at h
  split at h
  · simp at h
    rw [← h.1]
    exact hs
  · exact entriesLoop_ok_monotone env (partition_key f.title) f.entries 1 L L' evs h pk' rk' hs

theorem runFeeds_ok_monotone (env : RunEnv) :
    ∀ (fs : List Feed) (L L' : Ledger) (evs : List Event),
      runFeeds env L fs = .ok (L', evs) →
      ∀ pk' rk', (ledgerGet L pk' rk').isSome = true →
        (ledgerGet L' pk' rk').isSome = true := by
  intro fs
  induction fs with
  | nil =>
    intro L L' evs h pk' rk' hs
    simp [runFeeds] at h
    rw [← h.1]
    exact hs
  | cons f fs ih =>
    intro L L' evs h pk' rk' hs
    simp only [runFeeds] at h
    cases hpf : processFeed env L f with
    | error err => rw [hpf] at h; simp at h
    | ok p =>
      obtain ⟨L2, evs1⟩ := p
      rw [hpf] at h
      simp only at h
      cases hrest : runFeeds env L2 fs with
      | error err => rw [hrest] at h; simp at h
      | ok q =>
        obtain ⟨L3, evs2⟩ := q
        rw [hrest] at h
        simp at h
        rw [← h.1]
        exact ih L2 L3 evs2 hrest pk' rk'
          (processFeed_ok_monotone env L f L2 evs1 hpf pk' rk' hs)

theorem runFeeds_covers (env : RunEnv)
    (hput : ∀ pk rk, env.putFails pk rk = false) :
    ∀ (fs : List Feed) (L0 L1 : Ledger) (evs : List Event),
      runFeeds env L0 fs = .ok (L1, evs) →
      ∀ f ∈ fs, f.status = 200 →
        ∀ e ∈ f.entries.take 10,
          (ledgerGet L1 (partition_key f.title) (row_key e.id)).isSome = true := by
  intro fs
  induction fs with
  | nil => intro L0 L1 evs h f hf; simp at hf
  | cons g fs ih =>
    intro L0 L1 evs h f hf hstat e he
    simp only [runFeeds] at h
    cases hpf : processFeed env L0 g with
    | error err => rw [hpf] at h; simp at h
    | ok p =>
      obtain ⟨L2, evs1⟩ := p
      rw [hpf] at h
      simp only at h
      cases hrest : runFeeds env L2 fs with
      | error err => rw [hrest] at h; simp at h
      | ok q =>
        obtain ⟨L3, evs2⟩ := q
        rw [hrest] at h
        simp at h
        rcases List.mem_cons.mp hf with hgf | hgf
        · subst hgf
          have hcov : (ledgerGet L2 (partition_key f.title) (row_key e.id)).isSome = true := by
            unfold processFeed at hpf
            rw [if_neg (by rw [hstat]; omega)] at hpf
            exact entriesLoop_covers env (partition_key f.title) (hput _) f.entries 1
              L0 L2 evs1 hpf e (by simpa using he)
          rw [← h.1]
          exact runFeeds_ok_monotone env fs L2 L3 evs2 hrest _ _ hcov
        · rw [← h.1]
          exact ih L2 L3 evs2 hrest f hgf hstat e he

theorem processEntry_skip (env : RunEnv) (pk : String) (L : Ledger) (eid elink : String)
    (hget : env.getFails pk (row_key eid) = false)
    (hsome : (ledgerGet L pk (row_key eid)).isSome = true) :
    processEntry env pk L eid elink = .ok (L, [.ledgerGetCall pk (row_key eid)]) := by
  obtain ⟨r, hr⟩ := Option.isSome_iff_exists.mp hsome
  simp only [processEntry]
  rw [show read_history env L pk (row_key eid) = some r from by simp [read_history, hget, hr]]

theorem entriesLoop_skip (env : RunEnv) (pk : String)
    (hget : ∀ rk, env.getFails pk rk = false) :
    ∀ (es : List Entry) (i : Nat) (L : Ledger),
      (∀ e ∈ es.take (11 - i), (ledgerGet L pk (row_key e.id)).isSome = true) →
      ∃ evs, entriesLoop env pk i L es = .ok (L, evs) ∧ countSummarizerCalls evs = 0 := by
  intro es
  induction es with
  | nil => intro i L _; exact ⟨[], rfl, rfl⟩
  | cons e es ih =>
    intro i L hcov
    by_cases hi : 10 < i
    · exact ⟨[], by simp [entriesLoop, if_pos hi], rfl⟩
    · have h11 : 11 - i = (11 - (i + 1)) + 1 := by omega
      have hhead : (ledgerGet L pk (row_key e.id)).isSome = true := by
        apply hcov e
        rw [h11, List.take_succ_cons]
        exact List.mem_cons_self e _
      have hskip := processEntry_skip env pk L e.id e.link (hget _) hhead
      obtain ⟨evs2, hloop, hcnt⟩ := ih (i + 1) L (fun f hf => hcov f (by
        rw [h11, List.take_succ_cons]
        exact List.mem_cons_of_mem e hf))
      refine ⟨.ledgerGetCall pk (row_key e.id) :: evs2, ?_, ?_⟩
      · simp only [entriesLoop, if_neg hi]
        simp [hskip, hloop]
      · simpa [countSummarizerCalls, isSummarizerCall] using hcnt

theorem processFeed_skip (env : RunEnv) (f : Feed) (L : Ledger)
    (hget : ∀ rk, env.getFails (partition_key f.title) rk = false)
    (hcov : f.status = 200 → ∀ e ∈ f.entries.take 10,
      (ledgerGet L (partition_key f.title) (row_key e.id)).isSome = true) :
    ∃ evs, processFeed env L f = .ok (L, evs) ∧ countSummarizerCalls evs = 0 := by
  by_cases hs : f.status ≠ 200
  · exact ⟨[], by simp [processFeed, hs], rfl⟩
  · push_neg at hs
    obtain ⟨evs, hloop, hcnt⟩ := entriesLoop_skip env (partition_key f.title) hget
      f.entries 1 L (by simpa using hcov hs)
    refine ⟨evs, ?_, hcnt⟩
    unfold processFeed
    rw [if_neg (by omega), hloop]

theorem runFeeds_skip (env : RunEnv)
    (hget : ∀ pk rk, env.getFails pk rk = false) :
    ∀ (fs : List Feed) (L : Ledger),
      (∀ f ∈ fs, f.status = 200 → ∀ e ∈ f.entries.take 10,
        (ledgerGet L (partition_key f.title) (row_key e.id)).isSome = true) →
      ∃ evs, runFeeds env L fs = .ok (L, evs) ∧ countSummarizerCalls evs = 0 := by
  intro fs
  induction fs with
  | nil => intro L _; exact ⟨[], rfl, rfl⟩
  | cons f fs ih =>
    intro L hcov
    obtain ⟨evs1, hpf, hc1⟩ := processFeed_skip env f L (fun rk => hget _ rk)
      (fun hs e he => hcov f (List.mem_cons_self f fs) hs e he)
    obtain ⟨evs2, hrest, hc2⟩ := ih L (fun g hg => hcov g (List.mem_cons_of_mem f hg))
    refine ⟨evs1 ++ evs2, ?_, ?_⟩
    · simp only [runFeeds]
      simp [hpf, hrest]
    · unfold countSummarizerCalls at hc1 hc2 ⊢
      rw [List.filter_append, List.length_append, hc1, hc2]

/-- Claim C2: running the orchestrator a second time against the same
feeds and the ledger state produced by a first run (with a ledger whose
gets and puts do not fail) performs zero Summarizer invocations: the
second run succeeds, leaves the ledger unchanged and its trace contains
no summarizer call. -/
theorem second_run_zero_summarizer_calls (env : RunEnv) (L0 L1 : Ledger)
    (evs1 : List Event) (feeds : List Feed)
    (hput : ∀ pk rk, env.putFails pk rk = false)
    (hget : ∀ pk rk, env.getFails pk rk = false)
    (h1 : runFeeds env L0 feeds = .ok (L1, evs1)) :
    ∃ evs2, runFeeds env L1 feeds = .ok (L1, evs2) ∧ countSummarizerCalls evs2 = 0 :=
  runFeeds_skip env hget feeds L1
    (fun f hf hs e he => runFeeds_covers env hput feeds L0 L1 evs1 h1 f hf hs e he)

/-- Witness for C2: the concrete one-entry run whose fetch times out. -/
theorem second_run_zero_summarizer_calls_witness :
    ∃ evs2, runFeeds timeoutEnv oneEntryLedger [oneEntryFeed] = .ok (oneEntryLedger, evs2) ∧
      countSummarizerCalls evs2 = 0 :=
  second_run_zero_summarizer_calls timeoutEnv [] oneEntryLedger oneEntryTrace [oneEntryFeed]
    (fun _ _ => rfl) (fun _ _ => rfl) rfl

theorem get_summarize_no_getCall (env : RunEnv) (url : String)
    (out : String × List Event) (h : get_summarize env url = .ok out) :
    out.2.filterMap keyOfGet = [] := by
  unfold get_summarize at h
  cases hgc : get_content (env.fetchAt url) with
  | none =>
    rw [hgc] at h
    simp at h
    subst h
    rfl
  | some doc =>
    rw [hgc] at h
    simp only at h
    cases hga : get_article doc with
    | error e => rw [hga] at h; simp at h
    | ok chunks =>
      rw [hga] at h
      simp only at h
      by_cases hl : chunks.length = 0
      · rw [if_pos hl] at h
        simp at h
        subst h
        rfl
      · rw [if_neg hl] at h
        simp at h
        subst h
        rfl

theorem processEntry_keys (env : RunEnv) (pk : String) (L : Ledger)
    (eid elink : String) (L' : Ledger) (evs : List Event)
    (h : processEntry env pk L eid elink = .ok (L', evs)) :
    entryKeyEvents evs = [(pk, row_key eid)] := by
  simp only [processEntry] at h
  cases hrh : read_history env L pk (row_key eid) with
  | some r =>
    rw [hrh] at h
    simp at h
    rw [← h.2]
    rfl
  | none =>
    rw [hrh] at h
    cases hgs : get_summarize env elink with
    | error e => rw [hgs] at h; simp at h
    | ok out =>
      rw [hgs] at h
      simp at h
      rw [← h.2]
      unfold entryKeyEvents
      rw [List.filterMap_cons]
      simp only [keyOfGet, List.filterMap_append,
        get_summarize_no_getCall env elink out hgs]
      rfl

theorem entriesLoop_keys (env : RunEnv) (pk : String) :
    ∀ (es : List Entry) (i : Nat) (L L' : Ledger) (evs : List Event),
      entriesLoop env pk i L es = .ok (L', evs) →
      entryKeyEvents evs = (es.take (11 - i)).map (fun e => (pk, row_key e.id)) := by
  intro es
  induction es with
  | nil =>
    intro i L L' evs h
    simp [entriesLoop] at h
    rw [h.2]
    simp [entryKeyEvents]
  | cons e es ih =>
    intro i L L' evs h
    by_cases hi : 10 < i
    · simp [entriesLoop, if_pos hi] at h
      rw [h.2]
      have h0 : 11 - i = 0 := by omega
      simp [h0, entryKeyEvents]
    · have h11 : 11 - i = (11 - (i + 1)) + 1 := by omega
      simp only [entriesLoop, if_neg hi] at h
      cases hpe : processEntry env pk L e.id e.link with
      | error err => rw [hpe] at h; simp at h
      | ok p =>
        obtain ⟨L2, evs1⟩ := p
        rw [hpe] at h
        simp only at h
        cases hloop : entriesLoop env pk (i + 1) L2 es with
        | error err => rw [hloop] at h; simp at h
        | ok q =>
          obtain ⟨L3, evs2⟩ := q
          rw [hloop] at h
          simp at h
          rw [← h.2]
          rw [h11, List.take_succ_cons, List.map_cons]
          have hk1 := processEntry_keys env pk L e.id e.link L2 evs1 hpe
          have hk2 := ih (i + 1) L2 L3 evs2 hloop
          unfold entryKeyEvents at hk1 hk2 ⊢
          rw [List.filterMap_append, hk1, hk2]
          rfl

/-- Claim C5: a 200-status feed with eleven entries, run against an empty
ledger, performs exactly ten entry iterations, one per entry of the first
ten in source order, never eleven. -/
theorem feed_cap_ten (env : RunEnv) (f : Feed) (L' : Ledger) (evs : List Event)
    (hs : f.status = 200) (hn : f.entries.length = 11)
    (h : processFeed env [] f = .ok (L', evs)) :
    entryKeyEvents evs =
      (f.entries.take 10).map (fun e => (partition_key f.title, row_key e.id)) ∧
    (entryKeyEvents evs).length = 10 := by
  unfold processFeed at h
  rw [if_neg (by omega)] at h
  have hk := entriesLoop_keys env (partition_key f.title) f.entries 1 [] L' evs h
  constructor
  · simpa using hk
  · rw [show (11 : Nat) - 1 = 10 from rfl] at hk
    rw [hk, List.length_map, List.length_take, hn]
    decide

/-- Witness for C5: the concrete eleven-entry feed processed with an
environment whose fetches time out and whose ledger calls raise. -/
theorem feed_cap_ten_witness :
    entryKeyEvents elevenTrace =
      (elevenFeed.entries.take 10).map (fun e => (partition_key elevenFeed.title, row_key e.id)) ∧
    (entryKeyEvents elevenTrace).length = 10 :=
  feed_cap_ten timeoutEnv elevenFeed elevenLedger elevenTrace rfl rfl rfl

/-! ## Claim theorems for the remaining claims -/

/-- Counterexample to C1 as stated: for a feed entry whose fetch times
out, the run does perform a Ledger.put for that entry — with empty
content — so an empty-content record is written and the entry will not be
re-attempted. -/
theorem fetch_timeout_entry_still_written :
    timeoutEnv.fetchAt "u" = .timeout ∧
    processFeed timeoutEnv [] oneEntryFeed = .ok (oneEntryLedger, oneEntryTrace) ∧
    oneEntryTrace.filter isLedgerPut =
      [.ledgerPut (partition_key "F") (row_key "e1") "u" ""] :=
  ⟨rfl, rfl, rfl⟩

/-- Claim C1 (amended): for every entry reached with no history record
whose document fetch fails, or whose extraction yields no segments, the
orchestrator performs a Ledger.put with empty content for that entry
during that run (get_summarize returns the empty string and the main loop
writes it unconditionally), so the entry will not be re-attempted. -/
theorem failed_fetch_or_empty_extraction_written (env : RunEnv) (pk : String)
    (L : Ledger) (eid elink : String)
    (hrh : read_history env L pk (row_key eid) = none) :
    (get_content (env.fetchAt elink) = none →
      processEntry env pk L eid elink =
        .ok (write_history env L pk (row_key eid) elink "",
          [.ledgerGetCall pk (row_key eid), .fetchCall elink,
           .ledgerPut pk (row_key eid) elink ""])) ∧
    (∀ doc, get_content (env.fetchAt elink) = some doc → get_article doc = .ok [] →
      processEntry env pk L eid elink =
        .ok (write_history env L pk (row_key eid) elink "",
          [.ledgerGetCall pk (row_key eid), .fetchCall elink,
           .ledgerPut pk (row_key eid) elink ""])) := by
  constructor
  · intro hgc
    simp only [processEntry]
    rw [hrh]
    simp only [get_summarize]
    rw [hgc]
    rfl
  · intro doc hgc hga
    simp only [processEntry]
    rw [hrh]
    simp only [get_summarize]
    rw [hgc]
    simp only
    rw [hga]
    rfl

/-- Witness for C1 (amended) at the concrete timed-out entry. -/
theorem failed_fetch_or_empty_extraction_written_witness :
    processEntry timeoutEnv (partition_key "F") [] "e1" "u" =
      .ok (write_history timeoutEnv [] (partition_key "F") (row_key "e1") "u" "",
        [.ledgerGetCall (partition_key "F") (row_key "e1"), .fetchCall "u",
         .ledgerPut (partition_key "F") (row_key "e1") "u" ""]) :=
  (failed_fetch_or_empty_extraction_written timeoutEnv (partition_key "F") [] "e1" "u" rfl).1 rfl

/-- Claim C3 (code bug): on markup with an article container but no h1
heading, the source does not return the body chunks without a title — it
raises UnboundLocalError at app.py line 124, because h1_text is assigned
only under "if h1 is not None" (line 100-101) and read unconditionally. -/
theorem article_without_heading_crashes :
    findFirst ["article", "main"] noHeadingDoc =
      some ("article", .elemCons "p" (.textCons "Hello world." .nil) .nil) ∧
    findFirst ["h1"] (Forest.elemCons "p" (.textCons "Hello world." .nil) .nil) = none ∧
    get_article noHeadingDoc = .error .unboundLocalH1Text :=
  ⟨rfl, rfl, rfl⟩

/-- Counterexample to C7 as stated: when the body of the article happens
to contain the heading text again, the heading text does reappear in a
subsequent segment. -/
theorem heading_text_reappears :
    get_article repeatedHeadingDoc = .ok ["title: Hello", "Hello"] ∧
    "Hello" ∈ List.drop 1 ["title: Hello", "Hello"] :=
  ⟨rfl, by decide⟩

/-- Claim C7 (amended): for every markup with a heading inside the
article container, extraction produces the first segment
"title: " ++ heading text, and the body segments are chunked from the
container with the heading element removed, so the heading's own text
node contributes to no subsequent segment (text equal to the heading may
still occur elsewhere in the body). -/
theorem title_first_heading_removed (doc : Forest) (container h1 : String × Forest)
    (hc : findFirst ["article", "main"] doc = some container)
    (hh : findFirst ["h1"] container.2 = some h1) :
    get_article doc =
      .ok (("title: " ++ getText h1.2) :: cleanChunks (removeFirst "h1" container.2)) := by
  unfold get_article
  rw [hc]
  simp only
  rw [hh]

/-- Witness for C7 (amended) at the hello article. -/
theorem title_first_heading_removed_witness :
    get_article helloDoc =
      .ok (("title: " ++ getText (.textCons "Hello" .nil)) ::
        cleanChunks (removeFirst "h1"
          (.elemCons "h1" (.textCons "Hello" .nil)
            (.elemCons "p" (.textCons "World." .nil) .nil)))) :=
  title_first_heading_removed helloDoc
    ("article", .elemCons "h1" (.textCons "Hello" .nil)
      (.elemCons "p" (.textCons "World." .nil) .nil))
    ("h1", .textCons "Hello" .nil) rfl rfl

/-- Claim C9: a missing required configuration value (unset variable)
halts the process before any feed is processed, with exit code 0, not a
non-zero code. -/
theorem missing_config_exits_zero (c : ConfigEnv) (env : RunEnv) (pf : String → Feed)
    (h : envTruthy c.rss_url = false ∨ envTruthy c.storage_connection_string = false ∨
      envTruthy c.output_language = false ∨ envTruthy c.api_key = false) :
    runApp c env pf = .exited 0 [] := by
  have hv : validate_config c = some 0 := by
    unfold validate_config
    rcases h with h | h | h | h <;> simp [h]
  unfold runApp
  rw [hv]

/-- Witness for C9 with the RSS_URL variable unset. -/
theorem missing_config_exits_zero_witness :
    runApp noRssConfig timeoutEnv trivialParse = .exited 0 [] :=
  missing_config_exits_zero noRssConfig timeoutEnv trivialParse (Or.inl rfl)

/-- Claim C10: when the ledger get raises (for any reason, not only a
missing record), read_history returns none, so the orchestrator treats
the entry as unseen: it fetches, extracts and summarizes again and
upserts the entry's ledger record, whatever the ledger already holds. -/
theorem ledger_get_failure_reprocesses (env : RunEnv) (pk : String) (L : Ledger)
    (eid elink : String) (doc : Forest) (chunks : List String)
    (hgf : env.getFails pk (row_key eid) = true)
    (hgc : get_content (env.fetchAt elink) = some doc)
    (hga : get_article doc = .ok chunks)
    (hne : chunks.length ≠ 0) :
    read_history env L pk (row_key eid) = none ∧
    processEntry env pk L eid elink =
      .ok (write_history env L pk (row_key eid) elink ((env.apiAt elink).getD ""),
        [.ledgerGetCall pk (row_key eid), .fetchCall elink,
         .summarizerCall elink chunks,
         .ledgerPut pk (row_key eid) elink ((env.apiAt elink).getD "")]) := by
  have hrh : read_history env L pk (row_key eid) = none := by
    unfold read_history
    rw [hgf]
    rfl
  refine ⟨hrh, ?_⟩
  simp only [processEntry]
  rw [hrh]
  simp only [get_summarize]
  rw [hgc]
  simp only
  rw [hga]
  simp only
  rw [if_neg hne]
  rfl

/-- Witness for C10: ledger get raises while a stale record for the same
key exists; the entry is fully reprocessed and the record overwritten. -/
theorem ledger_get_failure_reprocesses_witness :
    read_history getFailEnv staleLedger (partition_key "F") (row_key "e1") = none ∧
    processEntry getFailEnv (partition_key "F") staleLedger "e1" "u" =
      .ok (write_history getFailEnv staleLedger (partition_key "F") (row_key "e1") "u"
          ((getFailEnv.apiAt "u").getD ""),
        [.ledgerGetCall (partition_key "F") (row_key "e1"), .fetchCall "u",
         .summarizerCall "u" ["title: Hello", "World."],
         .ledgerPut (partition_key "F") (row_key "e1") "u" ((getFailEnv.apiAt "u").getD "")]) :=
  ledger_get_failure_reprocesses getFailEnv (partition_key "F") staleLedger "e1" "u"
    helloDoc ["title: Hello", "World."] rfl rfl rfl (by decide)

/-! ## Claim theorem for the processing keys -/

theorem length_toLE : ∀ (k x : Nat), (toLE k x).length = k := by
  intro k
  induction k with
  | zero => intro x; rfl
  | succ k ih => intro x; simp [toLE, ih]

theorem length_md5Bytes (msg : List Nat) : (md5Bytes msg).length = 16 := by
  simp [md5Bytes, length_toLE]

theorem length_hexPairs :
    ∀ bs : List Nat,
      ((bs.map (fun b => [hexDigit (b / 16), hexDigit (b % 16)])).flatten).length =
        2 * bs.length := by
  intro bs
  induction bs with
  | nil => rfl
  | cons b bs ih =>
    simp only [List.map_cons, List.flatten_cons, List.length_append, ih, List.length_cons]
    simp
    omega

theorem length_md5Hex (s : String) : (md5Hex s).length = 32 := by
  show (String.mk _).length = 32
  rw [show ∀ l : List Char, (String.mk l).length = l.length from fun l => rfl]
  rw [length_hexPairs, length_md5Bytes]

/-- Claim C6: the processing keys are pure functions of their input
string: the partition key is exactly the md5 hex digest of the feed
title and the row key exactly the md5 hex digest of the entry identity,
always of fixed length 32; the digests agree with hashlib on the spec's
end-to-end scenario values. -/
theorem processing_keys_are_md5_digests :
    (∀ t : String, partition_key t = md5Hex t ∧ (partition_key t).length = 32) ∧
    (∀ u : String, row_key u = md5Hex u ∧ (row_key u).length = 32) ∧
    partition_key "Tech Blog" = "d20aa59e2ed5c235b4a3993cbce3d0dd" ∧
    row_key "e1" = "cd3dc8b6cffb41e4163dcbd857ca87da" := by
  refine ⟨fun t => ⟨rfl, length_md5Hex t⟩, fun u => ⟨rfl, length_md5Hex u⟩, ?_, ?_⟩ <;> decide

/-! ## Evaluation checks of the model on concrete inputs -/

example : splitText 5 sepList "ab,cd,ef".toList = ["ab,".toList, "cd,ef".toList] := by decide

example : splitText 3 sepList "abcdefgh".toList = ["abc".toList, "def".toList, "gh".toList] := by decide

example : chunkText "hello" = ["hello"] := by decide

example : get_article helloDoc = .ok ["title: Hello", "World."] := rfl

example : get_article (.elemCons "div" (.elemCons "p" (.textCons "x" .nil) .nil) .nil)
    = .ok [] := rfl

example : get_article
    (.elemCons "article"
      (.elemCons "h1" (.textCons "T" .nil)
        (.elemCons "pre" (.textCons "a\nb" .nil)
          (.elemCons "figure" (.textCons "gone" .nil)
            (.textCons "tail" .nil)))) .nil)
    = .ok ["title: T", "\n\x27\x27\x27code\na\nb\n\x27\x27\x27\ntail"] := rfl
